import Mathlib

/-!
Verification of the chord-annotation engine of `annotate_chords.py`
(repository imuzolev/playnashville).

Strings are modelled as `List Char`.  Python character-class predicates
(`str.isspace`, `str.islower`, `str.isalpha`, `str.isdigit`, the regex
classes `\w`, `\b`, `[a-z]`) are modelled over the ASCII range plus the
Cyrillic block U+0400–U+04FF (the repository's input language); the
claims under verification are insensitive to the extension of these
predicates beyond that range.
-/

namespace AnnotateChords

/-- The space character U+0020. -/
def spaceChar : Char := Char.ofNat 32

/-- Model of Python `str.isspace` (ASCII whitespace). -/
def pyIsSpace (c : Char) : Bool :=
  c = spaceChar ∨ c = Char.ofNat 9 ∨ c = Char.ofNat 10 ∨ c = Char.ofNat 11 ∨
  c = Char.ofNat 12 ∨ c = Char.ofNat 13

/-- ASCII decimal digit, model of Python `str.isdigit` / regex `[0-9]`. -/
def pyIsDigit (c : Char) : Bool :=
  Char.ofNat 48 ≤ c ∧ c ≤ Char.ofNat 57

/-- ASCII lowercase letter: the regex class `[a-z]` of the negative lookahead. -/
def isAsciiLower (c : Char) : Bool :=
  Char.ofNat 97 ≤ c ∧ c ≤ Char.ofNat 122

/-- Model of Python `str.islower`: ASCII `a-z` plus Cyrillic lowercase
`а`–`я` (U+0430–U+044F) and `ё` (U+0451). -/
def pyIsLower (c : Char) : Bool :=
  isAsciiLower c ∨ (Char.ofNat 0x430 ≤ c ∧ c ≤ Char.ofNat 0x44F) ∨ c = Char.ofNat 0x451

/-- Model of Python `str.isalpha`: ASCII letters plus Cyrillic letters
(U+0401, U+0410–U+044F, U+0451). -/
def pyIsAlpha (c : Char) : Bool :=
  isAsciiLower c ∨ (Char.ofNat 65 ≤ c ∧ c ≤ Char.ofNat 90) ∨
  (Char.ofNat 0x410 ≤ c ∧ c ≤ Char.ofNat 0x44F) ∨
  c = Char.ofNat 0x401 ∨ c = Char.ofNat 0x451

/-- Model of the regex class `\w` (Unicode word character): letters,
digits and underscore. -/
def pyIsWordChar (c : Char) : Bool :=
  pyIsAlpha c ∨ pyIsDigit c ∨ c = '_'

/-- Table `ENHARMONIC_EQUIVALENTS`: note spellings (root letter + accidental,
upper-cased) folded to the canonical sharps-only spelling. -/
def ENHARMONIC_EQUIVALENTS : List (List Char × List Char) :=
  [("AB".toList, "G#".toList),
   ("BB".toList, "A#".toList),
   ("CB".toList, "B".toList),
   ("DB".toList, "C#".toList),
   ("EB".toList, "D#".toList),
   ("FB".toList, "E".toList),
   ("GB".toList, "F#".toList),
   ("E#".toList, "F".toList),
   ("B#".toList, "C".toList)]

/-- The character class `[A-Ga-gHh]` of `CHORD_TOKEN` and `CHORD_REGEX`. -/
def isNoteLetterChar (c : Char) : Bool :=
  c ∈ ['A', 'B', 'C', 'D', 'E', 'F', 'G', 'a', 'b', 'c', 'd', 'e', 'f', 'g', 'H', 'h']

/-- The capture group `(.*)$` of `CHORD_TOKEN` applied to the remainder of
the token: `.` does not cross a newline, and `$` matches at the end of the
string or just before a single trailing newline. -/
def dollarCapture : List Char → Option (List Char)
  | [] => some []
  | c :: rest =>
    if c = Char.ofNat 10 then (if rest = [] then some [] else none)
    else (dollarCapture rest).map (fun tl => c :: tl)

/-- Regex `CHORD_TOKEN = ^([A-Ga-gHh])([#b]?)(.*)$` applied with `re.match`:
returns the root letter, the accidental group (possibly empty) and the
tail.  The optional accidental is greedy but backtracks if the tail
cannot satisfy `$`. -/
def chordTokenMatch : List Char → Option (Char × List Char × List Char)
  | [] => none
  | c :: rest =>
    if isNoteLetterChar c then
      match rest with
      | [] => some (c, [], [])
      | a :: rest2 =>
        if a = '#' ∨ a = 'b' then
          match dollarCapture rest2 with
          | some tl => some (c, [a], tl)
          | none =>
            match dollarCapture rest with
            | some tl => some (c, [], tl)
            | none => none
        else
          match dollarCapture rest with
          | some tl => some (c, [], tl)
          | none => none
    else none

/-- Python `str.strip`: drop leading and trailing whitespace. -/
def pyStrip (l : List Char) : List Char :=
  ((l.dropWhile pyIsSpace).reverse.dropWhile pyIsSpace).reverse

/-- Model of `re.sub(r"[.,:;!?]+$", "", s)` on a string with no trailing
whitespace: drop trailing punctuation characters. -/
def isTrailPunct (c : Char) : Bool :=
  c ∈ ['.', ',', ':', ';', '!', '?']

def stripTrailingPunct (l : List Char) : List Char :=
  (l.reverse.dropWhile isTrailPunct).reverse

/-- Model of `cleaned.split("/")[0]`: everything before the first slash. -/
def takeUntilSlash (l : List Char) : List Char :=
  l.takeWhile (fun c => c ≠ '/')

/-- The quality classifier of `normalize_chord_symbol`: examines the
lower-cased tail; `maj…` is major, `min…`/`m…` (but not `maj…`) is minor,
anything else is major. -/
def classifyQuality (tail : List Char) : List Char :=
  let tl := tail.map Char.toLower
  if ("maj".toList).isPrefixOf tl then []
  else if ("min".toList).isPrefixOf tl then ['m']
  else if (['m']).isPrefixOf tl ∧ ¬ (("maj".toList).isPrefixOf tl) then ['m']
  else []

/-- H → B replacement (German notation), applied when the whole note
part is exactly `H`. -/
def hFix (note : List Char) : List Char :=
  if note = ['H'] then ['B'] else note

/-- Lookup `ENHARMONIC_EQUIVALENTS.get(note, note)`. -/
def lookupEnh (note : List Char) : List Char :=
  match ENHARMONIC_EQUIVALENTS.find? (fun p => p.1 = note) with
  | some p => p.2
  | none => note

/-- The canonical note computed by `normalize_chord_symbol` from the
root letter and the accidental group. -/
def noteCanonical (c : Char) (acc : List Char) : List Char :=
  lookupEnh (hFix (c.toUpper :: acc.map Char.toUpper))

/-- Function `normalize_chord_symbol`: strip whitespace, fail on empty, strip
trailing punctuation, drop the slash-bass suffix, match `CHORD_TOKEN`,
fold H → B and enharmonic spellings, classify the quality. -/
def normalize_chord_symbol (symbol : List Char) : Option (List Char) :=
  let cleaned := pyStrip symbol
  if cleaned = [] then none
  else
    let cleaned2 := stripTrailingPunct cleaned
    let base := takeUntilSlash cleaned2
    match chordTokenMatch base with
    | none => none
    | some (c, acc, tail) =>
      some (noteCanonical c acc ++ classifyQuality tail)

/-- Function `normalize_key_name`: normalize the key symbol, then adjust a
trailing minor marker to agree with the requested mode
(`symbol[:-1] or None` on the major branch). -/
def normalize_key_name (name : List Char) (mode : List Char) : Option (List Char) :=
  match normalize_chord_symbol name with
  | none => none
  | some symbol =>
    if mode = "major".toList ∧ symbol.getLast? = some 'm' then
      (if symbol.dropLast = [] then none else some symbol.dropLast)
    else if mode = "minor".toList ∧ ¬ (symbol.getLast? = some 'm') then
      some (symbol ++ ['m'])
    else some symbol

/-- Table `MAJOR_SCALES`: label plus the ordered 7-chord diatonic list. -/
def MAJOR_SCALES : List (List Char × List (List Char)) :=
  [("C".toList, ["C".toList, "Dm".toList, "Em".toList, "F".toList, "G".toList, "Am".toList, "Bm".toList]),
   ("C#".toList, ["C#".toList, "D#m".toList, "Fm".toList, "F#".toList, "G#".toList, "A#m".toList, "Cm".toList]),
   ("D".toList, ["D".toList, "Em".toList, "F#m".toList, "G".toList, "A".toList, "Bm".toList, "C#m".toList]),
   ("D#".toList, ["D#".toList, "Fm".toList, "Gm".toList, "G#".toList, "A#".toList, "Cm".toList, "Dm".toList]),
   ("E".toList, ["E".toList, "F#m".toList, "G#m".toList, "A".toList, "B".toList, "C#m".toList, "D#m".toList]),
   ("F".toList, ["F".toList, "Gm".toList, "Am".toList, "A#".toList, "C".toList, "Dm".toList, "Em".toList]),
   ("F#".toList, ["F#".toList, "G#m".toList, "A#m".toList, "B".toList, "C#".toList, "D#m".toList, "Fm".toList]),
   ("G".toList, ["G".toList, "Am".toList, "Bm".toList, "C".toList, "D".toList, "Em".toList, "F#m".toList]),
   ("G#".toList, ["G#".toList, "A#m".toList, "Cm".toList, "C#".toList, "D#".toList, "Fm".toList, "Gm".toList]),
   ("A".toList, ["A".toList, "Bm".toList, "C#m".toList, "D".toList, "E".toList, "F#m".toList, "G#m".toList]),
   ("A#".toList, ["A#".toList, "Cm".toList, "Dm".toList, "D#".toList, "F".toList, "Gm".toList, "Am".toList]),
   ("B".toList, ["B".toList, "C#m".toList, "D#m".toList, "E".toList, "F#".toList, "G#m".toList, "A#m".toList])]

/-- Table `MINOR_SCALES`. -/
def MINOR_SCALES : List (List Char × List (List Char)) :=
  [("F#m".toList, ["F#m".toList, "G#".toList, "Am".toList, "Bm".toList, "C#".toList, "D".toList, "E".toList]),
   ("Gm".toList, ["Gm".toList, "A".toList, "A#m".toList, "Cm".toList, "D".toList, "D#m".toList, "F".toList]),
   ("G#m".toList, ["G#m".toList, "A#".toList, "Bm".toList, "C#m".toList, "D#".toList, "Em".toList, "F#".toList]),
   ("Am".toList, ["Am".toList, "B".toList, "Cm".toList, "Dm".toList, "E".toList, "Fm".toList, "G".toList]),
   ("A#m".toList, ["A#m".toList, "C".toList, "C#m".toList, "D#m".toList, "F".toList, "F#m".toList, "G#".toList]),
   ("Bm".toList, ["Bm".toList, "C#".toList, "Dm".toList, "Em".toList, "F#".toList, "Gm".toList, "A".toList])]

/-- The `Tonality` dataclass.  `chord_map` is the insertion-ordered dict
from canonical chord symbol to 1-based scale degree. -/
structure Tonality where
  key : List Char
  mode : List Char
  label : List Char
  chord_map : List (List Char × Nat)
  deriving DecidableEq

/-- The chord-map construction loop of `build_tonalities`: enumerate the
scale's chords from 1, normalize each, `setdefault` into the map
(first occurrence wins, failed normalizations are skipped). -/
def buildChordMap (chords : List (List Char)) (idx : Nat) (acc : List (List Char × Nat)) :
    List (List Char × Nat) :=
  match chords with
  | [] => acc
  | c :: rest =>
    match normalize_chord_symbol c with
    | some n =>
      if acc.any (fun p => p.1 = n) then buildChordMap rest (idx + 1) acc
      else buildChordMap rest (idx + 1) (acc ++ [(n, idx)])
    | none => buildChordMap rest (idx + 1) acc

/-- One mode's half of `build_tonalities`: scales whose label fails to
normalize are silently dropped (`continue`). -/
def buildForMode (mode : List Char) (scales : List (List Char × List (List Char))) :
    List Tonality :=
  scales.filterMap (fun s =>
    (normalize_key_name s.1 mode).map (fun nk =>
      { key := nk, mode := mode, label := s.1, chord_map := buildChordMap s.2 1 [] }))

/-- List `TONALITIES`: the catalog list, majors first, in table order. -/
def TONALITIES : List Tonality :=
  buildForMode ("major".toList) MAJOR_SCALES ++ buildForMode ("minor".toList) MINOR_SCALES

/-- Lookup `TONALITY_BY_KEY`: dict lookup by (normalized key, mode); a later
insertion for the same key overwrites an earlier one. -/
def TONALITY_BY_KEY (key : List Char) (mode : List Char) : Option Tonality :=
  (TONALITIES.filter (fun t => t.key = key ∧ t.mode = mode)).getLast?

/-- Model of `chord in tonality.chord_map` / `chord_map.get`. -/
def mapGet (m : List (List Char × Nat)) (c : List Char) : Option Nat :=
  (m.find? (fun p => p.1 = c)).map (fun p => p.2)

/-- totalHits: count of chords (with repetition) present in the map. -/
def countHits (cs : List (List Char)) (m : List (List Char × Nat)) : Nat :=
  cs.countP (fun c => (mapGet m c).isSome)

/-- uniqueChordHits: number of distinct chords present in the map. -/
def uniqueHits (cs : List (List Char)) (m : List (List Char × Nat)) : Nat :=
  ((cs.filter (fun c => (mapGet m c).isSome)).dedup).length

/-- tonicHits: count of chords whose mapped degree equals 1. -/
def tonicHits (cs : List (List Char)) (m : List (List Char × Nat)) : Nat :=
  cs.countP (fun c => mapGet m c = some 1)

/-- The score triple `(hits, unique_hits, tonic_hits)`. -/
def scoreOf (cs : List (List Char)) (t : Tonality) : Nat × Nat × Nat :=
  (countHits cs t.chord_map, uniqueHits cs t.chord_map, tonicHits cs t.chord_map)

/-- Python's lexicographic `<` on the score triples. -/
def scoreLt (a b : Nat × Nat × Nat) : Prop :=
  a.1 < b.1 ∨ (a.1 = b.1 ∧ (a.2.1 < b.2.1 ∨ (a.2.1 = b.2.1 ∧ a.2.2 < b.2.2)))

instance decScoreLt (a b : Nat × Nat × Nat) : Decidable (scoreLt a b) := by
  unfold scoreLt
  infer_instance

/-- Python truthiness of an optional string argument: `None` and the
empty string are falsy. -/
def pyTruthyOpt (o : Option (List Char)) : Bool :=
  match o with
  | none => false
  | some s => ¬ s.isEmpty

/-- Model of `(mode_arg or "major").lower()`. -/
def modeOfArg (mode_arg : Option (List Char)) : List Char :=
  (if pyTruthyOpt mode_arg then mode_arg.getD [] else "major".toList).map Char.toLower

/-- Model of the allowed-mode set: the singleton of the lowered mode argument when it is truthy, both modes otherwise. -/
def allowedModes (mode_arg : Option (List Char)) : List (List Char) :=
  if pyTruthyOpt mode_arg then [(mode_arg.getD []).map Char.toLower]
  else ["major".toList, "minor".toList]

/-- The scoring loop of `select_tonality`: iterate the catalog, skip
tonalities of a disallowed mode or with zero hits, replace the running
best only on a strictly greater score (`score > best[0]`).  The score
components are exactly `scoreOf`, with `hits` computed first for the
zero test. -/
def selectLoop (cs : List (List Char)) (allowed : List (List Char)) :
    List Tonality → Option ((Nat × Nat × Nat) × Tonality) → Option ((Nat × Nat × Nat) × Tonality)
  | [], best => best
  | t :: rest, best =>
    if t.mode ∈ allowed then
      if countHits cs t.chord_map = 0 then selectLoop cs allowed rest best
      else
        match best with
        | none => selectLoop cs allowed rest (some (scoreOf cs t, t))
        | some b =>
          if scoreLt b.1 (scoreOf cs t) then selectLoop cs allowed rest (some (scoreOf cs t, t))
          else selectLoop cs allowed rest best
    else selectLoop cs allowed rest best

/-- The scoring loop restricted to the already-filtered candidate list
(used to state and prove the argmax characterization of
`selectLoop`). -/
def bestFold (cs : List (List Char)) :
    List Tonality → Option ((Nat × Nat × Nat) × Tonality) → Option ((Nat × Nat × Nat) × Tonality)
  | [], best => best
  | t :: rest, best =>
    match best with
    | none => bestFold cs rest (some (scoreOf cs t, t))
    | some b =>
      if scoreLt b.1 (scoreOf cs t) then bestFold cs rest (some (scoreOf cs t, t))
      else bestFold cs rest best

/-- The candidate filter of the scoring loop: allowed mode and at least
one hit. -/
def isCandidate (cs : List (List Char)) (allowed : List (List Char)) (t : Tonality) : Bool :=
  decide (t.mode ∈ allowed) && decide (countHits cs t.chord_map ≠ 0)

/-- The C-major catalog entry, written out explicitly. -/
def tonalityCmajor : Tonality where
  key := "C".toList
  mode := "major".toList
  label := "C".toList
  chord_map := [("C".toList, 1), ("Dm".toList, 2), ("Em".toList, 3), ("F".toList, 4),
    ("G".toList, 5), ("Am".toList, 6), ("Bm".toList, 7)]

/-- The G-major catalog entry, written out explicitly. -/
def tonalityGmajor : Tonality where
  key := "G".toList
  mode := "major".toList
  label := "G".toList
  chord_map := [("G".toList, 1), ("Am".toList, 2), ("Bm".toList, 3), ("C".toList, 4),
    ("D".toList, 5), ("Em".toList, 6), ("F#m".toList, 7)]

/-- The Russian `ValueError` messages of `select_tonality`. -/
def errBadKeyName : List Char := "Некорректное название тональности.".toList

def errKeyNoData : List Char := "Для указанной тональности нет данных из таблицы.".toList

def errNoChords : List Char := "Не удалось найти аккорды во входном тексте.".toList

def errNoMatch : List Char := "Автоматически определить тональность не удалось.".toList

/-- Function `select_tonality(key_arg, mode_arg, chords)`; `ValueError` is
modelled as `Except.error` carrying the message. -/
def select_tonality (key_arg mode_arg : Option (List Char)) (chords : List (List Char)) :
    Except (List Char) Tonality :=
  if pyTruthyOpt key_arg then
    let mode := modeOfArg mode_arg
    match normalize_key_name (key_arg.getD []) mode with
    | none => Except.error errBadKeyName
    | some nk =>
      match TONALITY_BY_KEY nk mode with
      | none => Except.error errKeyNoData
      | some t => Except.ok t
  else if chords.isEmpty then Except.error errNoChords
  else
    match selectLoop chords (allowedModes mode_arg) TONALITIES none with
    | none => Except.error errNoMatch
    | some b => Except.ok b.2

/-! ### The chord grammar `CHORD_REGEX` and the annotator

`CHORD_REGEX =
\b([A-Ga-gHh][#b]?(?:(?:m(?:aj|in)?|sus|dim|aug|add|[0-9]|/[A-Ga-gHh][#b]?|[\+\-])*)?)(?![a-z])`

Matching is modelled as the backtracking engine does it: the optional
accidental and each star iteration are greedy, alternatives are tried in
pattern order, and the negative lookahead can force backtracking. -/

/-- Does `pat` occur in `text` starting at position `j`? -/
def matchesPat (text : List Char) (j : Nat) (pat : List Char) : Bool :=
  pat.isPrefixOf (text.drop j)

/-- End positions reachable by one iteration of the quality/extension
star from position `j`, in the engine's preference order:
`m(?:aj|in)?` (longer variant first), `sus`, `dim`, `aug`, `add`,
`[0-9]`, `/[A-Ga-gHh][#b]?` (with the optional accidental first),
`[\+\-]`. -/
def fragSteps (text : List Char) (j : Nat) : List Nat :=
  (if text.get? j = some 'm' then
    (if matchesPat text (j + 1) ("aj".toList) ∨ matchesPat text (j + 1) ("in".toList) then
      [j + 3, j + 1] else [j + 1])
   else []) ++
  (if matchesPat text j ("sus".toList) then [j + 3] else []) ++
  (if matchesPat text j ("dim".toList) then [j + 3] else []) ++
  (if matchesPat text j ("aug".toList) then [j + 3] else []) ++
  (if matchesPat text j ("add".toList) then [j + 3] else []) ++
  (if (text.get? j).any pyIsDigit then [j + 1] else []) ++
  (if text.get? j = some '/' ∧ (text.get? (j + 1)).any isNoteLetterChar then
    (if (text.get? (j + 2)).any (fun c => c = '#' ∨ c = 'b') then [j + 3, j + 2] else [j + 2])
   else []) ++
  (if text.get? j = some '+' ∨ text.get? j = some '-' then [j + 1] else [])

/-- The negative lookahead `(?![a-z])` at position `j`. -/
def lookaheadOK (text : List Char) (j : Nat) : Bool :=
  match text.get? j with
  | some c => ¬ isAsciiLower c
  | none => true

/-- Depth-first search of the star: try to extend with one more
fragment (alternatives in preference order, `List.findSome?` takes the
first success); if no extension yields a match, stop here provided the
lookahead allows it.  Returns the match end.  `fuel` only bounds the
recursion; every fragment advances the position, so `text.length + 1`
fuel never runs out. -/
def tryMatch (text : List Char) : Nat → Nat → Option Nat
  | 0, _ => none
  | fuel + 1, j =>
    match (fragSteps text j).findSome? (fun k => tryMatch text fuel k) with
    | some e => some e
    | none => if lookaheadOK text j then some j else none

/-- The word boundary `\b` immediately before a word character at
position `i`: start of text, or a non-word character before it. -/
def wordBoundaryBefore (text : List Char) (i : Nat) : Bool :=
  match i with
  | 0 => true
  | i' + 1 =>
    match text.get? i' with
    | some c => ¬ pyIsWordChar c
    | none => true

/-- Attempt of `CHORD_REGEX` at position `i`: word boundary, a note
letter, the greedy-but-backtracking optional accidental, then the star
search.  Returns the end position of the match. -/
def matchAt (text : List Char) (i : Nat) : Option Nat :=
  if wordBoundaryBefore text i then
    match text.get? i with
    | none => none
    | some c =>
      if isNoteLetterChar c then
        match text.get? (i + 1) with
        | some a =>
          if a = '#' ∨ a = 'b' then
            match tryMatch text (text.length + 1) (i + 2) with
            | some e => some e
            | none => tryMatch text (text.length + 1) (i + 1)
          else tryMatch text (text.length + 1) (i + 1)
        | none => tryMatch text (text.length + 1) (i + 1)
      else none
  else none

/-- Model of `CHORD_REGEX.finditer`: scan left to right, resume after each
(always non-empty) match, otherwise advance one position. -/
def scanFrom (text : List Char) : Nat → Nat → List (Nat × Nat)
  | 0, _ => []
  | fuel + 1, i =>
    match matchAt text i with
    | some e => (i, e) :: scanFrom text fuel e
    | none => if i < text.length then scanFrom text fuel (i + 1) else []

def finditer (text : List Char) : List (Nat × Nat) :=
  scanFrom text (text.length + 1) 0

/-- Slice `text[a:b]`. -/
def sliceT (text : List Char) (a b : Nat) : List Char :=
  (text.drop a).take (b - a)

/-- Length of the longest prefix of `l` satisfying `p` (the `while`
loops of the guards). -/
def countWhile (p : Char → Bool) (l : List Char) : Nat :=
  (l.takeWhile p).length

/-- Function `_already_has_degree(text, idx)`: skip whitespace, then require
`(`, one or more digits, `)`. -/
def alreadyHasDegree (text : List Char) (idx : Nat) : Bool :=
  let i1 := idx + countWhile pyIsSpace (text.drop idx)
  match text.get? i1 with
  | some c =>
    if c = '(' then
      let d := countWhile pyIsDigit (text.drop (i1 + 1))
      decide (0 < d) ∧ text.get? (i1 + 1 + d) = some ')'
    else false
  | none => false

/-- The chord-symbol alphabet of the lone-letter guard. -/
def chordWordAlphabet : List Char :=
  "ABCDEFGHabcdefgh#bmsujdiaog0123456789/+-".toList

/-- Is the next whitespace-delimited word chord-shaped: length 1–6,
first character (upper-cased) a note letter `A`–`H`, all characters in
the chord alphabet? -/
def chordShapedWord (w : List Char) : Bool :=
  decide (0 < w.length ∧ w.length ≤ 6) &&
  (match w.head? with
   | some c => c.toUpper ∈ ['A', 'B', 'C', 'D', 'E', 'F', 'G', 'H']
   | none => false) &&
  w.all (fun c => c ∈ chordWordAlphabet)

/-- Position of the first character after the run of `' '` characters
following position `e` (the next-word start scan of the lone-letter
guard). -/
def nciOf (text : List Char) (e : Nat) : Nat :=
  (e + 1) + countWhile (fun c => c = spaceChar) (text.drop (e + 1))

/-- End of the whitespace-delimited word starting at `nci`. -/
def nweOf (text : List Char) (nci : Nat) : Nat :=
  nci + countWhile (fun c => !(pyIsSpace c)) (text.drop nci)

/-- The lone-letter/article guard of `annotate_text`: a single-letter
match in `A`–`H` followed by a `' '` (U+0020 only), whose next word —
found by skipping further `' '` characters and reading up to the next
whitespace — exists but is not chord-shaped, is passed through
verbatim. -/
def loneLetterVerbatim (text : List Char) (s e : Nat) : Bool :=
  if e - s = 1 ∧
      (sliceT text s e).map Char.toUpper ∈
        [['A'], ['B'], ['C'], ['D'], ['E'], ['F'], ['G'], ['H']] then
    if text.get? e = some spaceChar then
      if nciOf text e < text.length then
        !(chordShapedWord (sliceT text (nciOf text e) (nweOf text (nciOf text e))))
      else false
    else false
  else false

/-- Decimal representation of a natural number (Python `str`); the
fuel argument strictly dominates the number of digits. -/
def natReprAux : Nat → Nat → List Char
  | 0, _ => []
  | fuel + 1, n =>
    if n < 10 then [Char.ofNat (48 + n)]
    else natReprAux fuel (n / 10) ++ [Char.ofNat (48 + n % 10)]

def natRepr (n : Nat) : List Char :=
  natReprAux (n + 1) n

/-- The inserted annotation `" (<degree>)"`. -/
def degreeStr (d : Nat) : List Char :=
  spaceChar :: '(' :: (natRepr d ++ [')'])

/-- The word-fragment guard: is the character immediately after the
match a lowercase letter (`text[end].islower() and
text[end].isalpha()`)? -/
def wordFragGuard (text : List Char) (e : Nat) : Bool :=
  match text.get? e with
  | some c => pyIsLower c && pyIsAlpha c
  | none => false

/-- The per-match branch of `annotate_text`: the guards in order
(word-fragment, lone-letter, already-annotated), then normalization and
lookup; every failing branch emits the matched text verbatim, a found
non-zero degree emits `"<match> (<degree>)"`. -/
def renderMatch (text : List Char) (m : List (List Char × Nat)) (s e : Nat) : List Char :=
  let chord := sliceT text s e
  if wordFragGuard text e then chord
  else if loneLetterVerbatim text s e then chord
  else if alreadyHasDegree text e then chord
  else
    match normalize_chord_symbol chord with
    | none => chord
    | some nrm =>
      if nrm.isEmpty then chord
      else
        match mapGet m nrm with
        | some d => if d ≠ 0 then chord ++ degreeStr d else chord
        | none => chord

/-- The piece-assembly loop of `annotate_text`: interstitial text,
then the rendered match, with `last` advanced to each match end. -/
def annotateLoop (text : List Char) (m : List (List Char × Nat)) :
    List (Nat × Nat) → Nat → List Char
  | [], last => text.drop last
  | (s, e) :: rest, last =>
    sliceT text last s ++ renderMatch text m s e ++ annotateLoop text m rest e

/-- Function `annotate_text(text, chord_map)` (the unused `all_tonalities`
parameter is omitted). -/
def annotate_text (text : List Char) (m : List (List Char × Nat)) : List Char :=
  annotateLoop text m (finditer text) 0

/-- Function `extract_chords`. -/
def extract_chords (text : List Char) : List (List Char) :=
  (finditer text).filterMap (fun p => normalize_chord_symbol (sliceT text p.1 p.2))

/-! ### Specification-side predicates -/

/-- A degree insertion: the string `" (<digits>)"` with at least one
digit. -/
def IsDegreeStr (d : List Char) : Prop :=
  ∃ ds, d = spaceChar :: '(' :: (ds ++ [')']) ∧ ds ≠ [] ∧ ∀ c ∈ ds, pyIsDigit c = true

/-- Relation `OnlyInsertions t t'` holds when `t'` is `t` with zero or more
degree-insertion strings inserted: no character of `t` is deleted or
reordered. -/
inductive OnlyInsertions : List Char → List Char → Prop
  | nil : OnlyInsertions [] []
  | keep (c : Char) {t t' : List Char} :
      OnlyInsertions t t' → OnlyInsertions (c :: t) (c :: t')
  | ins {t t' : List Char} (d : List Char) :
      IsDegreeStr d → OnlyInsertions t t' → OnlyInsertions t (d ++ t')

/-- Well-formed match spans: chained left to right, non-empty, within
bounds. -/
inductive ChainedSpans (len : Nat) : Nat → List (Nat × Nat) → Prop
  | nil (lo : Nat) : ChainedSpans len lo []
  | cons (lo s e : Nat) (rest : List (Nat × Nat)) :
      lo ≤ s → s < e → e ≤ len → ChainedSpans len e rest →
      ChainedSpans len lo ((s, e) :: rest)

/-- The twelve canonical sharps-only root spellings. -/
def twelveRoots : List (List Char) :=
  ["C".toList, "C#".toList, "D".toList, "D#".toList, "E".toList, "F".toList,
   "F#".toList, "G".toList, "G#".toList, "A".toList, "A#".toList, "B".toList]

/-- The root spellings `normalize_chord_symbol` can actually emit: the
twelve canonical ones plus the two unfolded spellings `H#` and `HB`
arising from a root letter `H` carrying an accidental. -/
def rootListAll : List (List Char) :=
  twelveRoots ++ ["H#".toList, "HB".toList]

/-- A canonical chord symbol in the sense of the specification:
`<Root>` or `<Root>m` with a sharps-only root. -/
def IsCanonicalChord (y : List Char) : Prop :=
  ∃ r q, y = r ++ q ∧ r ∈ twelveRoots ∧ (q = [] ∨ q = ['m'])

instance decIsCanonicalChord (y : List Char) : Decidable (IsCanonicalChord y) := by
  unfold IsCanonicalChord
  refine decidable_of_iff
    (∃ r ∈ twelveRoots, y = r ++ [] ∨ y = r ++ ['m']) ?_
  constructor
  · rintro ⟨r, hr, h | h⟩
    · exact ⟨r, [], h, hr, Or.inl rfl⟩
    · exact ⟨r, ['m'], h, hr, Or.inr rfl⟩
  · rintro ⟨r, q, h, hr, hq | hq⟩
    · exact ⟨r, hr, Or.inl (by simpa [hq] using h)⟩
    · exact ⟨r, hr, Or.inr (by simpa [hq] using h)⟩

/-! ## Helper lemmas: the normalizer -/

theorem classifyQuality_cases (tail : List Char) :
    classifyQuality tail = [] ∨ classifyQuality tail = ['m'] := by
  unfold classifyQuality
  dsimp only
  split_ifs <;> simp

theorem chordTokenMatch_shape {l : List Char} {c : Char} {acc tl : List Char}
    (h : chordTokenMatch l = some (c, acc, tl)) :
    isNoteLetterChar c = true ∧ (acc = [] ∨ acc = ['#'] ∨ acc = ['b']) := by
  cases l with
  | nil => simp [chordTokenMatch] at h
  | cons hd rest =>
    by_cases hn : isNoteLetterChar hd
    · cases rest with
      | nil =>
        simp only [chordTokenMatch, if_pos hn, Option.some.injEq] at h
        obtain ⟨rfl, rfl, rfl⟩ : hd = c ∧ [] = acc ∧ [] = tl := by simpa using h
        exact ⟨hn, Or.inl rfl⟩
      | cons a rest2 =>
        by_cases ha : a = '#' ∨ a = 'b'
        · cases hdc : dollarCapture rest2 with
          | some tl2 =>
            simp only [chordTokenMatch, if_pos hn, if_pos ha, hdc, Option.some.injEq] at h
            obtain ⟨rfl, rfl, rfl⟩ : hd = c ∧ [a] = acc ∧ tl2 = tl := by simpa using h
            rcases ha with rfl | rfl
            · exact ⟨hn, Or.inr (Or.inl rfl)⟩
            · exact ⟨hn, Or.inr (Or.inr rfl)⟩
          | none =>
            cases hdr : dollarCapture (a :: rest2) with
            | some tl2 =>
              simp only [chordTokenMatch, if_pos hn, if_pos ha, hdc, hdr,
                Option.some.injEq] at h
              obtain ⟨rfl, rfl, rfl⟩ : hd = c ∧ [] = acc ∧ tl2 = tl := by simpa using h
              exact ⟨hn, Or.inl rfl⟩
            | none =>
              simp only [chordTokenMatch, if_pos hn, if_pos ha, hdc, hdr] at h
              exact Option.noConfusion h
        · cases hdr : dollarCapture (a :: rest2) with
          | some tl2 =>
            simp only [chordTokenMatch, if_pos hn, if_neg ha, hdr, Option.some.injEq] at h
            obtain ⟨rfl, rfl, rfl⟩ : hd = c ∧ [] = acc ∧ tl2 = tl := by simpa using h
            exact ⟨hn, Or.inl rfl⟩
          | none =>
            simp only [chordTokenMatch, if_pos hn, if_neg ha, hdr] at h
            exact Option.noConfusion h
    · simp only [chordTokenMatch, if_neg hn] at h
      exact Option.noConfusion h

theorem noteCanonical_mem {c : Char} {acc : List Char}
    (hc : isNoteLetterChar c = true) (ha : acc = [] ∨ acc = ['#'] ∨ acc = ['b']) :
    noteCanonical c acc ∈ rootListAll := by
  have hc' : c = 'A' ∨ c = 'B' ∨ c = 'C' ∨ c = 'D' ∨ c = 'E' ∨ c = 'F' ∨ c = 'G' ∨
      c = 'a' ∨ c = 'b' ∨ c = 'c' ∨ c = 'd' ∨ c = 'e' ∨ c = 'f' ∨ c = 'g' ∨
      c = 'H' ∨ c = 'h' := by
    simpa [isNoteLetterChar] using hc
  rcases ha with rfl | rfl | rfl <;>
    rcases hc' with rfl | rfl | rfl | rfl | rfl | rfl | rfl | rfl | rfl | rfl | rfl | rfl |
      rfl | rfl | rfl | rfl <;> decide

/-- Every successful output of `normalize_chord_symbol` is a root from
`rootListAll` followed by an optional minor marker. -/
theorem normalize_shape {x y : List Char} (h : normalize_chord_symbol x = some y) :
    ∃ r q, y = r ++ q ∧ r ∈ rootListAll ∧ (q = [] ∨ q = ['m']) := by
  unfold normalize_chord_symbol at h
  dsimp only at h
  split at h
  · simp at h
  · split at h
    · simp at h
    · rename_i base c acc tail heq
      obtain ⟨hn, ha⟩ := chordTokenMatch_shape heq
      refine ⟨noteCanonical c acc, classifyQuality tail, ?_, noteCanonical_mem hn ha,
        classifyQuality_cases tail⟩
      simpa using h.symm

/-! ## Claims C5, C7, C8: the normalizer -/

/-- C5, counterexample: the claim "the returned canonical chord symbol
has the form `<Root>` or `<Root>m` where `Root` is one of the twelve
sharps-only spellings" fails on the input `H#`: normalization succeeds
and returns `H#` itself, whose root is not in the sharps-only set (the
H → B folding only fires when the note part is exactly `H`). -/
theorem normalize_h_sharp_escape :
    normalize_chord_symbol ("H#".toList) = some ("H#".toList) ∧
    ¬ IsCanonicalChord ("H#".toList) := by
  constructor
  · decide
  · decide

/-- C5, amended: for every input token on which `normalize_chord_symbol`
succeeds, the result has the form `<Root>` or `<Root>m` where `Root` is
one of the twelve sharps-only spellings or one of the two unfolded
spellings `H#`, `HB` (which arise exactly from a root letter `H`
carrying an explicit accidental); flats and the plain German `H` are
folded into the sharps-only set. -/
theorem normalize_root_forms {x y : List Char} (h : normalize_chord_symbol x = some y) :
    ∃ r q, y = r ++ q ∧ r ∈ rootListAll ∧ (q = [] ∨ q = ['m']) :=
  normalize_shape h

theorem normalize_root_forms_witness :
    ∃ r q, ("C#".toList : List Char) = r ++ q ∧ r ∈ rootListAll ∧ (q = [] ∨ q = ['m']) :=
  normalize_root_forms (x := "Db".toList) (by decide)

/-- C7, counterexample: normalization is not idempotent on all of its
successful outputs: `normalize("Hb") = "HB"`, but renormalizing `HB`
yields `B` (the `B` of `HB` is not an accidental, so the root letter
becomes a bare `H`, which is folded to `B`). -/
theorem normalize_not_idempotent_hb :
    normalize_chord_symbol ("Hb".toList) = some ("HB".toList) ∧
    normalize_chord_symbol ("HB".toList) = some ("B".toList) ∧
    ("HB".toList : List Char) ≠ "B".toList := by
  refine ⟨by decide, by decide, by decide⟩

/-- C7, amended: for every token `x` on which `normalize_chord_symbol`
succeeds, normalization is idempotent on the result unless the result is
one of the two unfolded spellings `HB`/`HBm` (produced only by inputs
with root `Hb`):
`normalize_chord_symbol (normalize_chord_symbol x) = normalize_chord_symbol x`. -/
theorem normalize_idempotent_off_hb (x y : List Char)
    (h : normalize_chord_symbol x = some y)
    (h1 : y ≠ "HB".toList) (h2 : y ≠ "HBm".toList) :
    normalize_chord_symbol y = some y := by
  obtain ⟨r, q, rfl, hr, hq⟩ := normalize_shape h
  simp only [rootListAll, twelveRoots, List.mem_append, List.mem_cons,
    List.not_mem_nil, or_false] at hr
  rcases hq with rfl | rfl <;>
    rcases hr with (rfl | rfl | rfl | rfl | rfl | rfl | rfl | rfl | rfl | rfl | rfl | rfl) |
      (rfl | rfl) <;>
    first
      | (exact absurd (by decide) h1)
      | (exact absurd (by decide) h2)
      | decide

theorem normalize_idempotent_off_hb_witness :
    normalize_chord_symbol ("C#m".toList) = some ("C#m".toList) :=
  normalize_idempotent_off_hb ("Dbmin7".toList) ("C#m".toList) (by decide) (by decide)
    (by decide)

/-- C8: enharmonic and notational variants are mapped to one canonical
spelling: `normalize("Db") = normalize("C#") = "C#"`,
`normalize("Hm") = "Bm"`, `normalize("E#") = "F"`. -/
theorem normalize_enharmonic_examples :
    normalize_chord_symbol ("Db".toList) = some ("C#".toList) ∧
    normalize_chord_symbol ("C#".toList) = some ("C#".toList) ∧
    normalize_chord_symbol ("Hm".toList) = some ("Bm".toList) ∧
    normalize_chord_symbol ("E#".toList) = some ("F".toList) := by
  refine ⟨by decide, by decide, by decide, by decide⟩

/-! ## Claim C10: the catalog invariants -/

/-- C10: the catalog contains exactly 18 tonalities — 12 major and 6
minor, one per built-in scale-table entry, none dropped — and every
tonality's chord map has degree values exactly `[1, …, 7]` in order over
7 distinct canonical chord symbols. -/
theorem tonality_catalog_shape :
    TONALITIES.length = 18 ∧
    (TONALITIES.filter (fun t => t.mode = "major".toList)).length = 12 ∧
    (TONALITIES.filter (fun t => t.mode = "minor".toList)).length = 6 ∧
    ∀ t ∈ TONALITIES,
      t.chord_map.map (fun p => p.2) = [1, 2, 3, 4, 5, 6, 7] ∧
      (t.chord_map.map (fun p => p.1)).Nodup ∧
      ∀ p ∈ t.chord_map, IsCanonicalChord p.1 := by
  refine ⟨by decide, by decide, by decide, by decide⟩

/-! ## Helper lemmas: the key selector -/

theorem scoreLt_trans {a b c : Nat × Nat × Nat} (h1 : scoreLt a b) (h2 : scoreLt b c) :
    scoreLt a c := by
  obtain ⟨a1, a2, a3⟩ := a
  obtain ⟨b1, b2, b3⟩ := b
  obtain ⟨c1, c2, c3⟩ := c
  unfold scoreLt at h1 h2 ⊢
  dsimp only at h1 h2 ⊢
  omega

theorem scoreLt_of_not_lt_of_lt {a b c : Nat × Nat × Nat} (h1 : ¬ scoreLt a b)
    (h2 : scoreLt a c) : scoreLt b c := by
  obtain ⟨a1, a2, a3⟩ := a
  obtain ⟨b1, b2, b3⟩ := b
  obtain ⟨c1, c2, c3⟩ := c
  unfold scoreLt at h1 h2 ⊢
  dsimp only at h1 h2 ⊢
  omega

/-- The one-pass loop of `select_tonality` equals the plain
first-wins-max fold over the filtered candidate list. -/
theorem selectLoop_eq_bestFold (cs allowed : List (List Char)) :
    ∀ (l : List Tonality) (best : Option ((Nat × Nat × Nat) × Tonality)),
    selectLoop cs allowed l best = bestFold cs (l.filter (isCandidate cs allowed)) best := by
  intro l
  induction l with
  | nil => intro best; rfl
  | cons t rest ih =>
    intro best
    by_cases hm : t.mode ∈ allowed
    · by_cases hh : countHits cs t.chord_map = 0
      · have hc : isCandidate cs allowed t = false := by simp [isCandidate, hh]
        simp [selectLoop, if_pos hm, if_pos hh, List.filter_cons, hc, ih]
      · have hc : isCandidate cs allowed t = true := by simp [isCandidate, hm, hh]
        cases best with
        | none =>
          simp [selectLoop, if_pos hm, if_neg hh, List.filter_cons, hc, bestFold, ih]
        | some b =>
          by_cases hlt : scoreLt b.1 (scoreOf cs t)
          · simp [selectLoop, if_pos hm, if_neg hh, hlt, List.filter_cons, hc, bestFold, ih]
          · simp [selectLoop, if_pos hm, if_neg hh, hlt, List.filter_cons, hc, bestFold, ih]
    · have hc : isCandidate cs allowed t = false := by simp [isCandidate, hm]
      simp [selectLoop, if_neg hm, List.filter_cons, hc, ih]

/-- Invariant of the first-wins-max fold with a running best. -/
theorem bestFold_acc_spec (cs : List (List Char)) :
    ∀ (l : List Tonality) (t0 : Tonality),
    ∃ t, bestFold cs l (some (scoreOf cs t0, t0)) = some (scoreOf cs t, t) ∧
      ((t = t0 ∧ ∀ u ∈ l, ¬ scoreLt (scoreOf cs t0) (scoreOf cs u)) ∨
       (∃ pre post, l = pre ++ t :: post ∧ scoreLt (scoreOf cs t0) (scoreOf cs t) ∧
         (∀ u ∈ pre, scoreLt (scoreOf cs u) (scoreOf cs t)) ∧
         (∀ u ∈ post, ¬ scoreLt (scoreOf cs t) (scoreOf cs u)))) := by
  intro l
  induction l with
  | nil => intro t0; exact ⟨t0, rfl, Or.inl ⟨rfl, by simp⟩⟩
  | cons c rest ih =>
    intro t0
    by_cases hlt : scoreLt (scoreOf cs t0) (scoreOf cs c)
    · obtain ⟨t, heq, hcase⟩ := ih c
      refine ⟨t, ?_, ?_⟩
      · simpa [bestFold, if_pos hlt] using heq
      · rcases hcase with ⟨rfl, hall⟩ | ⟨pre, post, rfl, hgt, hpre, hpost⟩
        · exact Or.inr ⟨[], rest, rfl, hlt, by simp, hall⟩
        · refine Or.inr ⟨c :: pre, post, rfl, scoreLt_trans hlt hgt, ?_, hpost⟩
          intro u hu
          rcases List.mem_cons.1 hu with rfl | hu
          · exact hgt
          · exact hpre u hu
    · obtain ⟨t, heq, hcase⟩ := ih t0
      refine ⟨t, ?_, ?_⟩
      · simpa [bestFold, if_neg hlt] using heq
      · rcases hcase with ⟨rfl, hall⟩ | ⟨pre, post, rfl, hgt, hpre, hpost⟩
        · refine Or.inl ⟨rfl, ?_⟩
          intro u hu
          rcases List.mem_cons.1 hu with rfl | hu
          · exact hlt
          · exact hall u hu
        · refine Or.inr ⟨c :: pre, post, rfl, hgt, ?_, hpost⟩
          intro u hu
          rcases List.mem_cons.1 hu with rfl | hu
          · exact scoreLt_of_not_lt_of_lt hlt hgt
          · exact hpre u hu

/-- The first-wins-max fold on a non-empty candidate list returns the
lexicographically greatest score; earlier candidates are strictly
smaller, later ones are never strictly greater. -/
theorem bestFold_none_spec (cs : List (List Char)) (l : List Tonality) (hl : l ≠ []) :
    ∃ t pre post, bestFold cs l none = some (scoreOf cs t, t) ∧
      l = pre ++ t :: post ∧
      (∀ u ∈ pre, scoreLt (scoreOf cs u) (scoreOf cs t)) ∧
      (∀ u ∈ post, ¬ scoreLt (scoreOf cs t) (scoreOf cs u)) := by
  match l with
  | [] => exact absurd rfl hl
  | c :: rest =>
    have hstep : bestFold cs (c :: rest) none = bestFold cs rest (some (scoreOf cs c, c)) :=
      rfl
    obtain ⟨t, heq, hcase⟩ := bestFold_acc_spec cs rest c
    rcases hcase with ⟨rfl, hall⟩ | ⟨pre, post, rfl, hgt, hpre, hpost⟩
    · exact ⟨t, [], rest, by rw [hstep, heq], rfl, by simp, hall⟩
    · refine ⟨t, c :: pre, post, by rw [hstep, heq], rfl, ?_, hpost⟩
      intro u hu
      rcases List.mem_cons.1 hu with rfl | hu
      · exact hgt
      · exact hpre u hu

theorem bestFold_some_isSome (cs : List (List Char)) :
    ∀ (l : List Tonality) (b : (Nat × Nat × Nat) × Tonality),
    (bestFold cs l (some b)).isSome = true := by
  intro l
  induction l with
  | nil => intro b; rfl
  | cons c rest ih =>
    intro b
    by_cases hlt : scoreLt b.1 (scoreOf cs c)
    · simpa [bestFold, if_pos hlt] using ih (scoreOf cs c, c)
    · simpa [bestFold, if_neg hlt] using ih b

theorem bestFold_none_eq_none_iff (cs : List (List Char)) (l : List Tonality) :
    bestFold cs l none = none ↔ l = [] := by
  constructor
  · intro h
    cases l with
    | nil => rfl
    | cons c rest =>
      have hstep : bestFold cs (c :: rest) none = bestFold cs rest (some (scoreOf cs c, c)) :=
        rfl
      rw [hstep] at h
      have := bestFold_some_isSome cs rest (scoreOf cs c, c)
      rw [h] at this
      simp at this
  · intro h; subst h; rfl

/-! ## Claim C1: automatic key selection is first-wins lexicographic argmax -/

/-- C1: with no explicit key and a non-empty chord sequence, a returned
tonality is a cataloged tonality of allowed mode with at least one hit,
its score triple `(totalHits, uniqueChordHits, tonicHits)` is never
lexicographically exceeded by any candidate, and every candidate
appearing earlier in catalog order scores strictly lower (first-seen
wins on ties); in particular
`select_tonality(None, None, ["C","F","G","C"])` returns the major
tonality with key `C`. -/
theorem select_tonality_lex_best :
    (∀ (cs : List (List Char)) (mode_arg : Option (List Char)) (t : Tonality),
      cs ≠ [] → select_tonality none mode_arg cs = Except.ok t →
      ∃ pre post,
        TONALITIES.filter (isCandidate cs (allowedModes mode_arg)) = pre ++ t :: post ∧
        (∀ u ∈ pre, scoreLt (scoreOf cs u) (scoreOf cs t)) ∧
        (∀ u ∈ post, ¬ scoreLt (scoreOf cs t) (scoreOf cs u))) ∧
    select_tonality none none ["C".toList, "F".toList, "G".toList, "C".toList] =
      Except.ok tonalityCmajor ∧
    tonalityCmajor.key = "C".toList ∧ tonalityCmajor.mode = "major".toList := by
  refine ⟨?_, rfl, rfl, rfl⟩
  intro cs mode_arg t hne hok
  have hempty : cs.isEmpty = false := by
    cases cs with
    | nil => exact absurd rfl hne
    | cons a l => rfl
  simp only [select_tonality, pyTruthyOpt, Bool.false_eq_true, if_false, hempty,
    selectLoop_eq_bestFold] at hok
  cases hfl : TONALITIES.filter (isCandidate cs (allowedModes mode_arg)) with
  | nil =>
    rw [hfl] at hok
    simp [bestFold] at hok
  | cons c rest =>
    obtain ⟨t', pre, post, heq, hdec, hpre, hpost⟩ :=
      bestFold_none_spec cs (c :: rest) (by simp)
    rw [hfl, heq] at hok
    have ht : t' = t := by simpa using hok
    subst ht
    exact ⟨pre, post, hdec, hpre, hpost⟩

theorem select_tonality_lex_best_witness :
    ∃ pre post,
      TONALITIES.filter
        (isCandidate ["C".toList, "F".toList, "G".toList, "C".toList] (allowedModes none)) =
        pre ++ tonalityCmajor :: post ∧
      (∀ u ∈ pre,
        scoreLt (scoreOf ["C".toList, "F".toList, "G".toList, "C".toList] u)
          (scoreOf ["C".toList, "F".toList, "G".toList, "C".toList] tonalityCmajor)) ∧
      (∀ u ∈ post,
        ¬ scoreLt (scoreOf ["C".toList, "F".toList, "G".toList, "C".toList] tonalityCmajor)
          (scoreOf ["C".toList, "F".toList, "G".toList, "C".toList] u)) :=
  select_tonality_lex_best.1 ["C".toList, "F".toList, "G".toList, "C".toList] none
    tonalityCmajor (by decide) select_tonality_lex_best.2.1

/-! ## Claim C2: the failure modes of `select_tonality` -/

/-- C2: `select_tonality` fails exactly as follows.  With a (truthy)
explicit key: `InvalidKey` — either message — when the key/mode
combination (mode defaulting to `major`) fails to normalize or is
absent from the catalog; otherwise the exact catalog tonality is
returned with no scoring, whatever the chord sequence (even empty).
With no explicit key: `NoChordsFound` on an empty sequence, and
`NoTonalityMatch` precisely when no allowed-mode tonality contains any
chord of the sequence.  In particular
`select_tonality("G", "major", [])` returns the `G` major tonality. -/
theorem select_tonality_error_cases :
    (∀ (k : List Char) (mode_arg : Option (List Char)) (cs : List (List Char)),
      pyTruthyOpt (some k) = true →
      (normalize_key_name k (modeOfArg mode_arg) = none →
        select_tonality (some k) mode_arg cs = Except.error errBadKeyName) ∧
      (∀ nk, normalize_key_name k (modeOfArg mode_arg) = some nk →
        TONALITY_BY_KEY nk (modeOfArg mode_arg) = none →
        select_tonality (some k) mode_arg cs = Except.error errKeyNoData) ∧
      (∀ nk t, normalize_key_name k (modeOfArg mode_arg) = some nk →
        TONALITY_BY_KEY nk (modeOfArg mode_arg) = some t →
        select_tonality (some k) mode_arg cs = Except.ok t)) ∧
    (∀ (key_arg mode_arg : Option (List Char)), pyTruthyOpt key_arg = false →
      select_tonality key_arg mode_arg [] = Except.error errNoChords) ∧
    (∀ (key_arg mode_arg : Option (List Char)) (cs : List (List Char)),
      pyTruthyOpt key_arg = false → cs ≠ [] →
      (select_tonality key_arg mode_arg cs = Except.error errNoMatch ↔
        ∀ t ∈ TONALITIES, t.mode ∈ allowedModes mode_arg → countHits cs t.chord_map = 0)) ∧
    modeOfArg none = "major".toList ∧
    select_tonality (some ("G".toList)) (some ("major".toList)) [] =
      Except.ok tonalityGmajor ∧
    tonalityGmajor.key = "G".toList ∧ tonalityGmajor.mode = "major".toList := by
  refine ⟨?_, ?_, ?_, rfl, rfl, rfl, rfl⟩
  · intro k mode_arg cs ht
    refine ⟨?_, ?_, ?_⟩
    · intro hnorm
      simp [select_tonality, ht, hnorm]
    · intro nk hnorm hlook
      simp [select_tonality, ht, hnorm, hlook]
    · intro nk t hnorm hlook
      simp [select_tonality, ht, hnorm, hlook]
  · intro key_arg mode_arg hk
    simp [select_tonality, hk]
  · intro key_arg mode_arg cs hk hne
    have hempty : cs.isEmpty = false := by
      cases cs with
      | nil => exact absurd rfl hne
      | cons a l => rfl
    simp only [select_tonality, hk, Bool.false_eq_true, if_false, hempty,
      selectLoop_eq_bestFold]
    constructor
    · intro h
      have hfl : TONALITIES.filter (isCandidate cs (allowedModes mode_arg)) = [] := by
        by_contra hne'
        obtain ⟨t', pre, post, heq, _, _, _⟩ :=
          bestFold_none_spec cs _ hne'
        rw [heq] at h
        simp at h
      intro t htm hmode
      have := (List.filter_eq_nil_iff.1 hfl) t htm
      simp [isCandidate, hmode] at this
      exact this
    · intro h
      have hfl : TONALITIES.filter (isCandidate cs (allowedModes mode_arg)) = [] := by
        refine List.filter_eq_nil_iff.2 ?_
        intro t htm
        simp [isCandidate]
        intro hmode
        exact h t htm hmode
      rw [hfl]
      rfl

theorem select_tonality_error_cases_witness :
    select_tonality none none [] = Except.error errNoChords ∧
    select_tonality (some ("X".toList)) none [] = Except.error errBadKeyName ∧
    select_tonality none none ["Q".toList] = Except.error errNoMatch :=
  ⟨select_tonality_error_cases.2.1 none none (by decide),
   (select_tonality_error_cases.1 ("X".toList) none [] (by decide)).1 (by decide),
   ((select_tonality_error_cases.2.2.1 none none ["Q".toList] (by decide)
      (by decide)).2 (by decide))⟩

/-! ## Helper lemmas: the annotator -/

theorem digitChar_isDigit {m : Nat} (hm : m < 10) : pyIsDigit (Char.ofNat (48 + m)) = true := by
  interval_cases m <;> decide

theorem natReprAux_digits : ∀ (fuel n : Nat), ∀ c ∈ natReprAux fuel n, pyIsDigit c = true := by
  intro fuel
  induction fuel with
  | zero => intro n c hc; simp [natReprAux] at hc
  | succ f ih =>
    intro n c hc
    by_cases h : n < 10
    · simp only [natReprAux, if_pos h, List.mem_singleton] at hc
      subst hc
      exact digitChar_isDigit h
    · simp only [natReprAux, if_neg h, List.mem_append, List.mem_singleton] at hc
      rcases hc with hc | hc
      · exact ih _ c hc
      · subst hc
        exact digitChar_isDigit (Nat.mod_lt _ (by omega))

theorem natRepr_ne_nil (n : Nat) : natRepr n ≠ [] := by
  unfold natRepr natReprAux
  by_cases h : n < 10 <;> simp [h]

theorem isDegreeStr_degreeStr (d : Nat) : IsDegreeStr (degreeStr d) :=
  ⟨natRepr d, rfl, natRepr_ne_nil d, fun c hc => natReprAux_digits _ _ c hc⟩

theorem onlyInsertions_refl : ∀ t, OnlyInsertions t t := by
  intro t
  induction t with
  | nil => exact OnlyInsertions.nil
  | cons c rest ih => exact OnlyInsertions.keep c ih

theorem onlyInsertions_append {a b c d : List Char} (h1 : OnlyInsertions a b)
    (h2 : OnlyInsertions c d) : OnlyInsertions (a ++ c) (b ++ d) := by
  induction h1 with
  | nil => simpa using h2
  | keep x h ih => exact OnlyInsertions.keep x ih
  | ins e he h ih =>
    rw [List.append_assoc]
    exact OnlyInsertions.ins e he ih

/-- Every rendered match is either the matched text verbatim, or the
matched text followed by one degree-insertion string. -/
theorem renderMatch_shape (text : List Char) (m : List (List Char × Nat)) (s e : Nat) :
    renderMatch text m s e = sliceT text s e ∨
    ∃ d, renderMatch text m s e = sliceT text s e ++ degreeStr d := by
  unfold renderMatch
  dsimp only
  split_ifs with h1 h2 h3
  · simp
  · simp
  · simp
  · cases hn : normalize_chord_symbol (sliceT text s e) with
    | none => exact Or.inl rfl
    | some nrm =>
      by_cases he : nrm.isEmpty
      · simp only [if_pos he]
        exact Or.inl trivial
      · simp only [if_neg he]
        cases hg : mapGet m nrm with
        | none => exact Or.inl rfl
        | some d =>
          by_cases hd : d ≠ 0
          · simp only [if_pos hd]
            exact Or.inr ⟨d, rfl⟩
          · simp only [if_neg hd]
            exact Or.inl trivial

theorem matchesPat_bound {text : List Char} {i : Nat} {pat : List Char}
    (hp : 0 < pat.length) (h : matchesPat text i pat = true) :
    i + pat.length ≤ text.length := by
  unfold matchesPat at h
  have hle := List.IsPrefix.length_le (List.isPrefixOf_iff_prefix.1 h)
  rw [List.length_drop] at hle
  omega

theorem get?_some_lt {text : List Char} {i : Nat} {c : Char} (h : text.get? i = some c) :
    i < text.length := by
  by_contra hlt
  rw [List.get?_eq_none.2 (by omega)] at h
  exact Option.noConfusion h

theorem fragSteps_bounds (text : List Char) (j k : Nat) (hk : k ∈ fragSteps text j) :
    j < k ∧ k ≤ text.length := by
  unfold fragSteps at hk
  simp only [List.mem_append] at hk
  rcases hk with ((((((hk | hk) | hk) | hk) | hk) | hk) | hk) | hk
  · split at hk
    · rename_i hm
      have hj1 : j < text.length := get?_some_lt hm
      split at hk
      · rename_i hp
        simp only [List.mem_cons, List.not_mem_nil, or_false] at hk
        have hb : j + 3 ≤ text.length := by
          rcases hp with hp | hp
          · have h2 := matchesPat_bound (by decide) hp
            have hL : ("aj".toList : List Char).length = 2 := rfl
            omega
          · have h2 := matchesPat_bound (by decide) hp
            have hL : ("in".toList : List Char).length = 2 := rfl
            omega
        rcases hk with rfl | rfl <;> exact ⟨by omega, by omega⟩
      · simp only [List.mem_cons, List.not_mem_nil, or_false] at hk
        subst hk
        exact ⟨by omega, by omega⟩
    · simp at hk
  · split at hk
    · rename_i hp
      simp only [List.mem_cons, List.not_mem_nil, or_false] at hk
      subst hk
      have h2 := matchesPat_bound (by decide) hp
      have hL : ("sus".toList : List Char).length = 3 := rfl
      exact ⟨by omega, by omega⟩
    · simp at hk
  · split at hk
    · rename_i hp
      simp only [List.mem_cons, List.not_mem_nil, or_false] at hk
      subst hk
      have h2 := matchesPat_bound (by decide) hp
      have hL : ("dim".toList : List Char).length = 3 := rfl
      exact ⟨by omega, by omega⟩
    · simp at hk
  · split at hk
    · rename_i hp
      simp only [List.mem_cons, List.not_mem_nil, or_false] at hk
      subst hk
      have h2 := matchesPat_bound (by decide) hp
      have hL : ("aug".toList : List Char).length = 3 := rfl
      exact ⟨by omega, by omega⟩
    · simp at hk
  · split at hk
    · rename_i hp
      simp only [List.mem_cons, List.not_mem_nil, or_false] at hk
      subst hk
      have h2 := matchesPat_bound (by decide) hp
      have hL : ("add".toList : List Char).length = 3 := rfl
      exact ⟨by omega, by omega⟩
    · simp at hk
  · split at hk
    · rename_i hp
      simp only [List.mem_cons, List.not_mem_nil, or_false] at hk
      subst hk
      cases hg : text.get? j with
      | none => rw [hg] at hp; simp at hp
      | some c =>
        have := get?_some_lt hg
        exact ⟨by omega, by omega⟩
    · simp at hk
  · split at hk
    · rename_i hp
      obtain ⟨hs, hnote⟩ := hp
      have hj1 : j + 1 < text.length := by
        cases hg : text.get? (j + 1) with
        | none => rw [hg] at hnote; simp at hnote
        | some c => exact get?_some_lt hg
      split at hk
      · rename_i hacc
        have hj2 : j + 2 < text.length := by
          cases hg : text.get? (j + 2) with
          | none => rw [hg] at hacc; simp at hacc
          | some c => exact get?_some_lt hg
        simp only [List.mem_cons, List.not_mem_nil, or_false] at hk
        rcases hk with rfl | rfl <;> exact ⟨by omega, by omega⟩
      · simp only [List.mem_cons, List.not_mem_nil, or_false] at hk
        subst hk
        exact ⟨by omega, by omega⟩
    · simp at hk
  · split at hk
    · rename_i hp
      simp only [List.mem_cons, List.not_mem_nil, or_false] at hk
      subst hk
      have hj1 : j < text.length := by
        rcases hp with hp | hp <;> exact get?_some_lt hp
      exact ⟨by omega, by omega⟩
    · simp at hk

theorem tryMatch_bounds :
    ∀ (fuel : Nat) (text : List Char) (j e : Nat), j ≤ text.length →
    tryMatch text fuel j = some e → j ≤ e ∧ e ≤ text.length := by
  intro fuel
  induction fuel with
  | zero => intro text j e _ h; simp [tryMatch] at h
  | succ f ih =>
    intro text j e hj h
    simp only [tryMatch] at h
    cases hf : (fragSteps text j).findSome? (fun k => tryMatch text f k) with
    | some e2 =>
      rw [hf] at h
      have heq : e2 = e := by simpa using h
      obtain ⟨k, hk, hks⟩ := List.exists_of_findSome?_eq_some hf
      obtain ⟨hjk, hkl⟩ := fragSteps_bounds text j k hk
      obtain ⟨hke, hel⟩ := ih text k e2 hkl hks
      exact ⟨by omega, by omega⟩
    | none =>
      rw [hf] at h
      by_cases hl : lookaheadOK text j
      · rw [if_pos hl] at h
        have heq : j = e := by simpa using h
        exact ⟨by omega, by omega⟩
      · rw [if_neg hl] at h
        exact Option.noConfusion h

theorem matchAt_bounds {text : List Char} {i e : Nat} (h : matchAt text i = some e) :
    i < e ∧ e ≤ text.length := by
  unfold matchAt at h
  by_cases hb : wordBoundaryBefore text i
  · rw [if_pos hb] at h
    cases hgi : text.get? i with
    | none => rw [hgi] at h; exact Option.noConfusion h
    | some c =>
      simp only [hgi] at h
      have hi : i < text.length := get?_some_lt hgi
      by_cases hn : isNoteLetterChar c
      · rw [if_pos hn] at h
        cases hga : text.get? (i + 1) with
        | none =>
          simp only [hga] at h
          obtain ⟨h1, h2⟩ := tryMatch_bounds _ text (i + 1) e (by omega) h
          exact ⟨by omega, h2⟩
        | some a =>
          simp only [hga] at h
          have hi1 : i + 1 < text.length := get?_some_lt hga
          by_cases hacc : a = '#' ∨ a = 'b'
          · rw [if_pos hacc] at h
            cases h2m : tryMatch text (text.length + 1) (i + 2) with
            | some e2 =>
              simp only [h2m] at h
              have heq : e2 = e := by simpa using h
              obtain ⟨h1, h2⟩ := tryMatch_bounds _ text (i + 2) e2 (by omega) h2m
              exact ⟨by omega, by omega⟩
            | none =>
              simp only [h2m] at h
              obtain ⟨h1, h2⟩ := tryMatch_bounds _ text (i + 1) e (by omega) h
              exact ⟨by omega, h2⟩
          · rw [if_neg hacc] at h
            obtain ⟨h1, h2⟩ := tryMatch_bounds _ text (i + 1) e (by omega) h
            exact ⟨by omega, h2⟩
      · rw [if_neg hn] at h
        exact Option.noConfusion h
  · rw [if_neg hb] at h
    exact Option.noConfusion h

theorem chainedSpans_mono {len lo lo' : Nat} {ms : List (Nat × Nat)}
    (h : ChainedSpans len lo ms) (hle : lo' ≤ lo) : ChainedSpans len lo' ms := by
  cases h with
  | nil => exact ChainedSpans.nil lo'
  | cons _ s e rest hls hse hel hrest =>
    exact ChainedSpans.cons lo' s e rest (by omega) hse hel hrest

theorem scanFrom_chained (text : List Char) :
    ∀ (fuel i : Nat), ChainedSpans text.length i (scanFrom text fuel i) := by
  intro fuel
  induction fuel with
  | zero => intro i; exact ChainedSpans.nil i
  | succ f ih =>
    intro i
    simp only [scanFrom]
    cases hm : matchAt text i with
    | some e =>
      obtain ⟨hie, hel⟩ := matchAt_bounds hm
      exact ChainedSpans.cons i i e _ (le_refl i) hie hel (ih e)
    | none =>
      by_cases hi : i < text.length
      · rw [if_pos hi]
        exact chainedSpans_mono (ih (i + 1)) (by omega)
      · rw [if_neg hi]
        exact ChainedSpans.nil i

theorem drop_eq_slice_append (text : List Char) (a b : Nat) (hab : a ≤ b) :
    text.drop a = sliceT text a b ++ text.drop b := by
  unfold sliceT
  have h1 : text.drop b = List.drop (b - a) (List.drop a text) := by
    rw [List.drop_drop]
    congr 1
    omega
  rw [h1, List.take_append_drop]

theorem annotateLoop_onlyInsertions (text : List Char) (m : List (List Char × Nat)) :
    ∀ (ms : List (Nat × Nat)) (last : Nat), ChainedSpans text.length last ms →
    OnlyInsertions (text.drop last) (annotateLoop text m ms last) := by
  intro ms
  induction ms with
  | nil => intro last _; exact onlyInsertions_refl _
  | cons p rest ih =>
    intro last hch
    obtain ⟨s, e⟩ := p
    cases hch with
    | cons _ _ _ _ hls hse hel hrest =>
      have hd1 : text.drop last = sliceT text last s ++ text.drop s :=
        drop_eq_slice_append text last s hls
      have hd2 : text.drop s = sliceT text s e ++ text.drop e :=
        drop_eq_slice_append text s e (le_of_lt hse)
      show OnlyInsertions (text.drop last)
        (sliceT text last s ++ renderMatch text m s e ++ annotateLoop text m rest e)
      rcases renderMatch_shape text m s e with hr | ⟨d, hr⟩
      · rw [hr, hd1, hd2, List.append_assoc]
        exact onlyInsertions_append (onlyInsertions_refl _)
          (onlyInsertions_append (onlyInsertions_refl _) (ih e hrest))
      · rw [hr, hd1, hd2, List.append_assoc]
        refine onlyInsertions_append (onlyInsertions_refl _) ?_
        rw [List.append_assoc]
        exact onlyInsertions_append (onlyInsertions_refl _)
          (OnlyInsertions.ins _ (isDegreeStr_degreeStr d) (ih e hrest))

/-! ## Claim C3: the annotator only inserts degree strings -/

/-- C3: for every input text and chord map, `annotate_text` never
deletes or reorders a character of the input: the output is the input
with zero or more `" (<digits>)"` strings inserted (each rendered match
contributes its own text verbatim, optionally followed by one such
insertion, and all interstitial text is copied through in order). -/
theorem annotate_text_insertions_only (text : List Char) (m : List (List Char × Nat)) :
    OnlyInsertions text (annotate_text text m) := by
  have h := annotateLoop_onlyInsertions text m (finditer text) 0
    (scanFrom_chained text (text.length + 1) 0)
  simpa [annotate_text] using h

/-! ## Claim C4: idempotence of annotation -/

/-- C4 (counterexample): annotation is not idempotent.  On
`"CmE"` with chord map `{Cm ↦ 3, E ↦ 5}` the first pass yields
`"Cm (3)E"`; the inserted `")"` creates a word boundary before `E`,
which the second pass then matches and annotates: `"Cm (3)E (5)"`. -/
theorem annotate_text_not_idempotent :
    annotate_text ("CmE".toList) [("Cm".toList, 3), ("E".toList, 5)] = "Cm (3)E".toList ∧
    annotate_text ("Cm (3)E".toList) [("Cm".toList, 3), ("E".toList, 5)] =
      "Cm (3)E (5)".toList ∧
    annotate_text (annotate_text ("CmE".toList) [("Cm".toList, 3), ("E".toList, 5)])
        [("Cm".toList, 3), ("E".toList, 5)] ≠
      annotate_text ("CmE".toList) [("Cm".toList, 3), ("E".toList, 5)] := by
  refine ⟨by decide, by decide, by decide⟩

/-- C4 (amended): a chord match whose next non-whitespace text is `(`
followed by one or more digits and `)` is emitted verbatim and never
annotated a second time; full idempotence
`annotate_text (annotate_text t m) m = annotate_text t m` fails in
general, because an insertion can expose a new match (see the
counterexample). -/
theorem annotate_already_degree_verbatim (text : List Char) (m : List (List Char × Nat))
    (s e : Nat) (hmem : (s, e) ∈ finditer text)
    (hdeg : alreadyHasDegree text e = true) :
    renderMatch text m s e = sliceT text s e := by
  unfold renderMatch
  dsimp only
  by_cases hg1 : wordFragGuard text e = true
  · rw [if_pos hg1]
  · rw [if_neg hg1]
    by_cases hg2 : loneLetterVerbatim text s e = true
    · rw [if_pos hg2]
    · rw [if_neg hg2, if_pos hdeg]

theorem annotate_already_degree_verbatim_witness :
    renderMatch ("C (1)".toList) [("C".toList, 1)] 0 1 = sliceT ("C (1)".toList) 0 1 :=
  annotate_already_degree_verbatim ("C (1)".toList) [("C".toList, 1)] 0 1 (by decide)
    (by decide)

/-! ## Claim C6: the lone-letter/article guard -/

/-- C6 (counterexample): the lone-letter guard fires only after a space
character U+0020, not after arbitrary whitespace: the single letter `C`
followed by a newline and the non-chord word `x` is still annotated,
although the claim requires it to be emitted verbatim. -/
theorem lone_letter_newline_cex :
    annotate_text ("C\nx".toList) [("C".toList, 1)] = "C (1)\nx".toList ∧
    pyIsSpace (Char.ofNat 10) = true ∧
    chordShapedWord ("x".toList) = false ∧
    finditer ("C\nx".toList) = [(0, 1)] := by
  refine ⟨by decide, by decide, by decide, by decide⟩

/-- C6 (amended): whenever a match is a single letter from
`{A,…,H}` followed by a space character U+0020 (other whitespace does
not trigger the guard), and the next word — found by skipping further
spaces and reading up to the next whitespace — exists and is not
chord-shaped (length 1–6, first character a note letter, all characters
in the chord-symbol alphabet), the letter is emitted verbatim with no
degree insertion. -/
theorem lone_letter_guard_verbatim (text : List Char) (m : List (List Char × Nat))
    (s e : Nat) (hmem : (s, e) ∈ finditer text) (h1 : e = s + 1)
    (hup : (sliceT text s e).map Char.toUpper ∈
      [['A'], ['B'], ['C'], ['D'], ['E'], ['F'], ['G'], ['H']])
    (hsp : text.get? e = some spaceChar)
    (hnci : nciOf text e < text.length)
    (hword : chordShapedWord (sliceT text (nciOf text e) (nweOf text (nciOf text e))) =
      false) :
    renderMatch text m s e = sliceT text s e := by
  have hlone : loneLetterVerbatim text s e = true := by
    unfold loneLetterVerbatim
    rw [if_pos ⟨by omega, hup⟩, if_pos hsp, if_pos hnci, hword]
    rfl
  unfold renderMatch
  dsimp only
  by_cases hg1 : wordFragGuard text e = true
  · rw [if_pos hg1]
  · rw [if_neg hg1, if_pos hlone]

theorem lone_letter_guard_verbatim_witness :
    renderMatch ("C x".toList) [("C".toList, 1)] 0 1 = sliceT ("C x".toList) 0 1 :=
  lone_letter_guard_verbatim ("C x".toList) [("C".toList, 1)] 0 1 (by decide) rfl
    (by decide) (by decide) (by decide) (by decide)

/-! ## Claim C9: the word-fragment guard -/

/-- C9: a grammar match whose immediately following character is a
lowercase letter is emitted verbatim — never normalized or annotated;
in particular annotating `"Amazing grace"` with any chord map returns
the text unchanged. -/
theorem word_fragment_guard :
    (∀ (text : List Char) (m : List (List Char × Nat)) (s e : Nat) (c : Char),
      (s, e) ∈ finditer text → text.get? e = some c → pyIsLower c = true →
      pyIsAlpha c = true → renderMatch text m s e = sliceT text s e) ∧
    (∀ m : List (List Char × Nat),
      annotate_text ("Amazing grace".toList) m = "Amazing grace".toList) := by
  constructor
  · intro text m s e c hmem hg hl ha
    have hguard : wordFragGuard text e = true := by
      unfold wordFragGuard
      rw [hg]
      simp [hl, ha]
    unfold renderMatch
    dsimp only
    rw [if_pos hguard]
  · intro m
    have hfi : finditer ("Amazing grace".toList) = [] := by decide
    show annotateLoop ("Amazing grace".toList) m (finditer ("Amazing grace".toList)) 0 =
      "Amazing grace".toList
    rw [hfi]
    rfl

theorem word_fragment_guard_witness :
    renderMatch ("Cм".toList) [] 0 1 = sliceT ("Cм".toList) 0 1 :=
  word_fragment_guard.1 ("Cм".toList) [] 0 1 'м' (by decide) (by decide) (by decide)
    (by decide)

/-- End-to-end sanity check of the pipeline on the specification's
example: the chords of `"C F G Am"` and their annotation in C major. -/
theorem end_to_end_example :
    extract_chords ("C F G Am".toList) = ["C".toList, "F".toList, "G".toList, "Am".toList] ∧
    annotate_text ("C F G Am".toList) tonalityCmajor.chord_map =
      "C (1) F (4) G (5) Am (6)".toList := by
  refine ⟨by decide, by decide⟩

end AnnotateChords
